import Mathlib

/-!
Verification of the generalized-edit-distance library in `levenshtein.py`.

The file shallowly embeds the four functions of the source:

* `lev`            — the naive recursive distance (lines 4-33);
* `dynprog`        — the DP fill producing the cost matrix `M` and the
                     trace matrix `P` (lines 43-106), embedded as the cell
                     functions `dpM`/`dpP` plus the materialized matrices
                     `dynprogM`/`dynprogP`;
* `explain_dynprog`— the backtracking walk that recovers the edit script
                     (lines 111-141), embedded as `emit`/`explain_dynprog`;
* `levenshtein`    — the unparameterized unit-cost distance (lines 144-171),
                     embedded as `levMat`/`levenshtein`.

Costs are Python floats in the source; they are embedded as rationals so
that all arithmetic is exact.  Out-of-range indexing, which raises
`IndexError` in Python, is modelled by `Option` (`none` = the call raises).
-/

set_option linter.unusedSectionVars false

namespace Lev

variable {α : Type*}

/-- An edit operation of the edit script: match/substitute a source element
with a target element, insert a target element, or delete a source
element.  The source emits the strings `' match x and y '`, `'insert y'`,
`'delete x'`; the embedding keeps the elements and drops the formatting. -/
inductive EditOp (α : Type*) where
  | mtch : α → α → EditOp α
  | ins : α → EditOp α
  | del : α → EditOp α
deriving DecidableEq

/-- Cell function of the DP cost matrix `M` built by `dynprog`
(lines 83-105 of the source): `dpM ic dc mc x y i j` is the value stored in
`M[i, j]`.  Row `i = 0` and column `j = 0` are the cumulative sums
`np.cumsum` of insert/delete costs; an inner cell is the minimum of the
three candidates, taken in the source order [match, insert, delete].
The fill is embedded row by row, exactly as the `ix` loop of the source:
`dpMrow0` is row 0 (`np.cumsum` of insert costs, `M[0, 0] = 0`), `dpMrowS`
computes row `i + 1` from row `i`, and `dpM` stacks the rows. -/
def dpMrow0 [Inhabited α] (ic : α → ℚ) (y : List α) : ℕ → ℚ
  | 0 => 0
  | j + 1 => dpMrow0 ic y j + ic (y.getD j default)

/-- Row `i + 1` of the cost matrix, given row `i` as `prev` (the loop body
of lines 95-105 for a fixed `ix = i + 1`, sweeping `iy`).  The cell at
`iy = 0` is the boundary `np.cumsum` of delete costs. -/
def dpMrowS [Inhabited α] (ic dc : α → ℚ) (mc : α → α → ℚ) (x y : List α)
    (i : ℕ) (prev : ℕ → ℚ) : ℕ → ℚ
  | 0 => prev 0 + dc (x.getD i default)
  | j + 1 =>
      min (min (prev j + mc (x.getD i default) (y.getD j default))
               (dpMrowS ic dc mc x y i prev j + ic (y.getD j default)))
          (prev (j + 1) + dc (x.getD i default))

def dpM [Inhabited α] (ic dc : α → ℚ) (mc : α → α → ℚ) (x y : List α) :
    ℕ → ℕ → ℚ
  | 0 => dpMrow0 ic y
  | i + 1 => dpMrowS ic dc mc x y i (dpM ic dc mc x y i)

/-- Cell function of the trace matrix `P` built by `dynprog`
(lines 87-104): `P[i, 0] = 2` (delete), `P[0, j] = 1` (insert) for positive
`i`, `j`, `P[0, 0] = 0` (`np.zeros`), and an inner cell holds
`np.argmin(L)` for `L = [match, insert, delete]`, i.e. the first index
attaining the minimum. -/
def dpP [Inhabited α] (ic dc : α → ℚ) (mc : α → α → ℚ) (x y : List α) :
    ℕ → ℕ → ℕ
  | 0, 0 => 0
  | _ + 1, 0 => 2
  | 0, _ + 1 => 1
  | i + 1, j + 1 =>
      let a := dpM ic dc mc x y i j + mc (x.getD i default) (y.getD j default)
      let b := dpM ic dc mc x y (i + 1) j + ic (y.getD j default)
      let c := dpM ic dc mc x y i (j + 1) + dc (x.getD i default)
      if a ≤ b ∧ a ≤ c then 0 else if b ≤ c then 1 else 2

/-- The cost matrix `M` returned by `dynprog`, materialized as a list of
`x.length + 1` rows of `y.length + 1` entries. -/
def dynprogM [Inhabited α] (ic dc : α → ℚ) (mc : α → α → ℚ)
    (x y : List α) : List (List ℚ) :=
  (List.range (x.length + 1)).map fun i =>
    (List.range (y.length + 1)).map fun j => dpM ic dc mc x y i j

/-- The trace matrix `P` returned by `dynprog`, materialized. -/
def dynprogP [Inhabited α] (ic dc : α → ℚ) (mc : α → α → ℚ)
    (x y : List α) : List (List ℕ) :=
  (List.range (x.length + 1)).map fun i =>
    (List.range (y.length + 1)).map fun j => dpP ic dc mc x y i j

/-- `dynprog` (lines 43-106): returns the pair `(M, P)`.  The source has no
error path: it always returns the two matrices. -/
def dynprog [Inhabited α] (ic dc : α → ℚ) (mc : α → α → ℚ)
    (x y : List α) : List (List ℚ) × List (List ℕ) :=
  (dynprogM ic dc mc x y, dynprogP ic dc mc x y)

/-- The edit distance: the final cell `M[nx, ny]` of `dynprog`. -/
def edit_distance [Inhabited α] (ic dc : α → ℚ) (mc : α → α → ℚ)
    (x y : List α) : ℚ :=
  dpM ic dc mc x y x.length y.length

/-- Entry `A[i][j]` of a rational matrix, `none` when out of range. -/
def entry (A : List (List ℚ)) (i j : ℕ) : Option ℚ :=
  A[i]?.bind fun r => r[j]?

/-- Entry `A[i][j]` of a natural-number matrix, `none` when out of range. -/
def entryN (A : List (List ℕ)) (i j : ℕ) : Option ℕ :=
  A[i]?.bind fun r => r[j]?

/-- `lev` (lines 4-33 of the source), translated branch by branch.  The
guards are Python truthiness tests: `if a:` fires when `a` is NON-empty,
so the function returns the insert-all-of-`b` cost whenever `a` is
non-empty, the delete-all-of-`a` cost (a sum over the empty `a`, hence 0)
when `a` is empty and `b` is not, and otherwise — both sequences empty —
it recurses on `lev(a[:-1], b[:-1]) = lev(a, b)` without progress, which
never terminates (Python raises `RecursionError`); that branch is
modelled as `none`.  The `match_cost` parameter is accepted but, as in
every terminating run of the source, never evaluated. -/
def lev (ic dc : α → ℚ) (_mc : α → α → ℚ) (a b : List α) : Option ℚ :=
  if a.isEmpty then
    if b.isEmpty then none
    else some ((a.map dc).sum)
  else some ((b.map ic).sum)

/-- The deletes drained by the first post-loop `while ix > 0` of
`explain_dynprog` (lines 134-136), in emission order
`delete x[ix-1], ..., delete x[0]`. -/
def drainD (x : List α) : ℕ → Option (List (EditOp α))
  | 0 => some []
  | i + 1 => x[i]?.bind fun a => (drainD x i).map fun L => EditOp.del a :: L

/-- The inserts drained by the second post-loop `while iy > 0`
(lines 137-139), in emission order. -/
def drainI (y : List α) : ℕ → Option (List (EditOp α))
  | 0 => some []
  | j + 1 => y[j]?.bind fun b => (drainI y j).map fun L => EditOp.ins b :: L

/-- The main backtracking walk of `explain_dynprog` (lines 120-139),
producing the operations in emission order (right-to-left over the
sequences).  While both indices are positive the walk reads `P[ix, iy]`:
op code 0 emits a match and decrements both indices, op code 1 emits an
insert and decrements `iy`, any other value emits a delete and decrements
`ix` (the source's final `else`).  Once an index hits zero the two drain
loops run, deletes first.  Every sequence or matrix access mirrors the
source's indexing; `none` models an `IndexError`.  The walk is embedded
by recursion on `(ix, iy)`: `emitRowS x y P i prev` is the walk value at
`ix = i + 1` given its value `prev` at `ix = i`; the walk value at
`ix = 0` is the pure drain. -/
def emitRowS (x y : List α) (P : List (List ℕ)) (i : ℕ)
    (prev : ℕ → Option (List (EditOp α))) : ℕ → Option (List (EditOp α))
  | 0 => (drainD x (i + 1)).bind fun L1 => (drainI y 0).map fun L2 => L1 ++ L2
  | j + 1 =>
      (P[i + 1]?.bind fun r => r[j + 1]?).bind fun p =>
        if p = 0 then
          x[i]?.bind fun a => y[j]?.bind fun b =>
            (prev j).map fun L => EditOp.mtch a b :: L
        else if p = 1 then
          y[j]?.bind fun b =>
            (emitRowS x y P i prev j).map fun L => EditOp.ins b :: L
        else
          x[i]?.bind fun a =>
            (prev (j + 1)).map fun L => EditOp.del a :: L

def emit (x y : List α) (P : List (List ℕ)) : ℕ → ℕ → Option (List (EditOp α))
  | 0 => fun j => (drainD x 0).bind fun L1 => (drainI y j).map fun L2 => L1 ++ L2
  | i + 1 => emitRowS x y P i (emit x y P i)

/-- `explain_dynprog` (lines 111-141): run the walk from `(nx, ny)` and
reverse the emitted list (`list(reversed(L))`).  The parameter `M` is
accepted and, exactly as in the source, never read. -/
def explain_dynprog (x y : List α) (_M : List (List ℚ))
    (P : List (List ℕ)) : Option (List (EditOp α)) :=
  (emit x y P x.length y.length).map List.reverse

/-- The cost of a single edit operation under a cost model. -/
def opCost (ic dc : α → ℚ) (mc : α → α → ℚ) : EditOp α → ℚ
  | EditOp.mtch a b => mc a b
  | EditOp.ins b => ic b
  | EditOp.del a => dc a

/-- The total cost of an edit script under a cost model. -/
def scriptCost (ic dc : α → ℚ) (mc : α → α → ℚ) (L : List (EditOp α)) : ℚ :=
  (L.map (opCost ic dc mc)).sum

/-- The source elements consumed by an edit script, in script order:
matches and deletes consume a source element, inserts do not. -/
def srcElems : List (EditOp α) → List α :=
  List.filterMap fun op =>
    match op with
    | EditOp.mtch a _ => some a
    | EditOp.del a => some a
    | EditOp.ins _ => none

/-- The target elements produced by an edit script, in script order:
matches and inserts produce a target element, deletes do not. -/
def outElems : List (EditOp α) → List α :=
  List.filterMap fun op =>
    match op with
    | EditOp.mtch _ b => some b
    | EditOp.ins b => some b
    | EditOp.del _ => none

/-- Replay of an edit script over a source sequence with the literal
"match = copy the source element" semantics of the spec: a match copies
the current source element, an insert emits the operation's target
element, a delete skips the current source element.  `none` when the
script does not cover the source exactly. -/
def replay : List (EditOp α) → List α → Option (List α)
  | [], [] => some []
  | [], _ :: _ => none
  | EditOp.mtch _ _ :: rest, a :: s => (replay rest s).map fun t => a :: t
  | EditOp.mtch _ _ :: _, [] => none
  | EditOp.ins b :: rest, s => (replay rest s).map fun t => b :: t
  | EditOp.del _ :: rest, _ :: s => replay rest s
  | EditOp.del _ :: _, [] => none

/-- Replay with substitution semantics: identical to `replay` except that
a match/substitute operation writes the operation's TARGET element (for an
equal-element match this coincides with copying the source element). -/
def replaySub : List (EditOp α) → List α → Option (List α)
  | [], [] => some []
  | [], _ :: _ => none
  | EditOp.mtch _ b :: rest, _ :: s => (replaySub rest s).map fun t => b :: t
  | EditOp.mtch _ _ :: _, [] => none
  | EditOp.ins b :: rest, s => (replaySub rest s).map fun t => b :: t
  | EditOp.del _ :: rest, _ :: s => replaySub rest s
  | EditOp.del _ :: _, [] => none

/-- Cell function of the matrix built by the unparameterized `levenshtein`
(lines 144-171): `matrix[x, 0] = x`, `matrix[0, y] = y`, and an inner cell
is the minimum of the three candidates in the source's order
`(matrix[x-1, y] + 1, matrix[x-1, y-1] (+ 1 if unequal), matrix[x, y-1] + 1)`.
Embedded row by row: `levRowS s1 s2 i prev` is row `i + 1` given row `i`. -/
def levRowS [Inhabited α] [DecidableEq α] (s1 s2 : List α) (i : ℕ)
    (prev : ℕ → ℚ) : ℕ → ℚ
  | 0 => ((i + 1 : ℕ) : ℚ)
  | j + 1 =>
      if s1.getD i default = s2.getD j default then
        min (min (prev (j + 1) + 1) (prev j))
            (levRowS s1 s2 i prev j + 1)
      else
        min (min (prev (j + 1) + 1) (prev j + 1))
            (levRowS s1 s2 i prev j + 1)

def levMat [Inhabited α] [DecidableEq α] (s1 s2 : List α) :
    ℕ → ℕ → ℚ
  | 0 => fun j => (j : ℚ)
  | i + 1 => levRowS s1 s2 i (levMat s1 s2 i)

/-- `levenshtein` (lines 144-171): the final cell
`matrix[size_x - 1, size_y - 1]`. -/
def levenshtein [Inhabited α] [DecidableEq α] (s1 s2 : List α) : ℚ :=
  levMat s1 s2 s1.length s2.length

section Helpers

variable [Inhabited α] (ic dc : α → ℚ) (mc : α → α → ℚ) (x y : List α)

lemma getElem?_eq_some_getD {l : List α} {i : ℕ} (h : i < l.length) :
    l[i]? = some (l.getD i default) := by
  rw [List.getElem?_eq_getElem h, List.getD_eq_getElem l default h]

lemma take_succ_getD {l : List α} {i : ℕ} (h : i < l.length) :
    l.take (i + 1) = l.take i ++ [l.getD i default] := by
  rw [List.take_succ, getElem?_eq_some_getD h]
  rfl

lemma min3_eq_left {a b c : ℚ} (hab : a ≤ b) (hac : a ≤ c) :
    min (min a b) c = a := by
  simp only [min_def]
  split_ifs <;> linarith

lemma min3_eq_mid {a b c : ℚ} (h : ¬(a ≤ b ∧ a ≤ c)) (hbc : b ≤ c) :
    min (min a b) c = b := by
  rcases not_and_or.mp h with h1 | h1 <;> push_neg at h1 <;>
    simp only [min_def] <;> split_ifs <;> linarith

lemma min3_eq_right {a b c : ℚ} (h : ¬(a ≤ b ∧ a ≤ c)) (hbc : ¬b ≤ c) :
    min (min a b) c = c := by
  push_neg at hbc
  rcases not_and_or.mp h with h1 | h1 <;> push_neg at h1 <;>
    simp only [min_def] <;> split_ifs <;> linarith

lemma dpM_zero_zero : dpM ic dc mc x y 0 0 = 0 := rfl

lemma dpM_succ_zero (i : ℕ) :
    dpM ic dc mc x y (i + 1) 0 = dpM ic dc mc x y i 0 + dc (x.getD i default) := rfl

lemma dpM_zero_succ (j : ℕ) :
    dpM ic dc mc x y 0 (j + 1) = dpM ic dc mc x y 0 j + ic (y.getD j default) := rfl

lemma dpM_succ_succ (i j : ℕ) :
    dpM ic dc mc x y (i + 1) (j + 1) =
      min (min (dpM ic dc mc x y i j + mc (x.getD i default) (y.getD j default))
               (dpM ic dc mc x y (i + 1) j + ic (y.getD j default)))
          (dpM ic dc mc x y i (j + 1) + dc (x.getD i default)) := rfl

lemma dpP_succ_succ (i j : ℕ) :
    dpP ic dc mc x y (i + 1) (j + 1) =
      (if dpM ic dc mc x y i j + mc (x.getD i default) (y.getD j default) ≤
            dpM ic dc mc x y (i + 1) j + ic (y.getD j default) ∧
          dpM ic dc mc x y i j + mc (x.getD i default) (y.getD j default) ≤
            dpM ic dc mc x y i (j + 1) + dc (x.getD i default)
       then 0
       else if dpM ic dc mc x y (i + 1) j + ic (y.getD j default) ≤
            dpM ic dc mc x y i (j + 1) + dc (x.getD i default)
       then 1 else 2) := by
  rfl

lemma entry_dynprogM {i j : ℕ} (hi : i ≤ x.length) (hj : j ≤ y.length) :
    entry (dynprogM ic dc mc x y) i j = some (dpM ic dc mc x y i j) := by
  unfold entry dynprogM
  rw [List.getElem?_map, List.getElem?_range (Nat.lt_succ_of_le hi)]
  simp only [Option.map_some', Option.some_bind]
  rw [List.getElem?_map, List.getElem?_range (Nat.lt_succ_of_le hj)]
  rfl

lemma entryN_dynprogP {i j : ℕ} (hi : i ≤ x.length) (hj : j ≤ y.length) :
    entryN (dynprogP ic dc mc x y) i j = some (dpP ic dc mc x y i j) := by
  unfold entryN dynprogP
  rw [List.getElem?_map, List.getElem?_range (Nat.lt_succ_of_le hi)]
  simp only [Option.map_some', Option.some_bind]
  rw [List.getElem?_map, List.getElem?_range (Nat.lt_succ_of_le hj)]
  rfl

lemma dpM_row {i : ℕ} (hi : i ≤ x.length) :
    dpM ic dc mc x y i 0 = ((x.take i).map dc).sum := by
  induction i with
  | zero => rw [dpM_zero_zero]; simp
  | succ i ih =>
      rw [dpM_succ_zero, ih (Nat.le_of_succ_le hi),
        take_succ_getD (Nat.lt_of_succ_le hi)]
      simp

lemma dpM_col {j : ℕ} (hj : j ≤ y.length) :
    dpM ic dc mc x y 0 j = ((y.take j).map ic).sum := by
  induction j with
  | zero => rw [dpM_zero_zero]; simp
  | succ j ih =>
      rw [dpM_zero_succ, ih (Nat.le_of_succ_le hj),
        take_succ_getD (Nat.lt_of_succ_le hj)]
      simp

lemma emit_succ_succ (P : List (List ℕ)) (i j : ℕ) :
    emit x y P (i + 1) (j + 1) =
      (P[i + 1]?.bind fun r => r[j + 1]?).bind fun p =>
        if p = 0 then
          x[i]?.bind fun a => y[j]?.bind fun b =>
            (emit x y P i j).map fun L => EditOp.mtch a b :: L
        else if p = 1 then
          y[j]?.bind fun b =>
            (emit x y P (i + 1) j).map fun L => EditOp.ins b :: L
        else
          x[i]?.bind fun a =>
            (emit x y P i (j + 1)).map fun L => EditOp.del a :: L := rfl

lemma emit_zero_right (P : List (List ℕ)) (i : ℕ) :
    emit x y P i 0 =
      (drainD x i).bind fun L1 => (drainI y 0).map fun L2 => L1 ++ L2 := by
  cases i <;> rfl

lemma emit_zero_left (P : List (List ℕ)) (j : ℕ) :
    emit x y P 0 j =
      (drainD x 0).bind fun L1 => (drainI y j).map fun L2 => L1 ++ L2 := rfl

lemma drainD_eq {x : List α} {i : ℕ} (hi : i ≤ x.length) :
    drainD x i = some (((x.take i).reverse).map EditOp.del) := by
  induction i with
  | zero => rfl
  | succ i ih =>
      rw [drainD, getElem?_eq_some_getD (Nat.lt_of_succ_le hi),
        ih (Nat.le_of_succ_le hi), take_succ_getD (Nat.lt_of_succ_le hi)]
      simp

lemma drainI_eq {y : List α} {j : ℕ} (hj : j ≤ y.length) :
    drainI y j = some (((y.take j).reverse).map EditOp.ins) := by
  induction j with
  | zero => rfl
  | succ j ih =>
      rw [drainI, getElem?_eq_some_getD (Nat.lt_of_succ_le hj),
        ih (Nat.le_of_succ_le hj), take_succ_getD (Nat.lt_of_succ_le hj)]
      simp

lemma scriptCost_cons (op : EditOp α) (L : List (EditOp α)) :
    scriptCost ic dc mc (op :: L) = opCost ic dc mc op + scriptCost ic dc mc L := by
  simp [scriptCost]

lemma scriptCost_append (L1 L2 : List (EditOp α)) :
    scriptCost ic dc mc (L1 ++ L2) = scriptCost ic dc mc L1 + scriptCost ic dc mc L2 := by
  simp [scriptCost]

lemma scriptCost_map_del (l : List α) :
    scriptCost ic dc mc (l.map EditOp.del) = (l.map dc).sum := by
  simp [scriptCost, List.map_map]
  rfl

lemma scriptCost_map_ins (l : List α) :
    scriptCost ic dc mc (l.map EditOp.ins) = (l.map ic).sum := by
  simp [scriptCost, List.map_map]
  rfl

lemma srcElems_map_del (l : List α) : srcElems (l.map EditOp.del) = l := by
  simp [srcElems, List.filterMap_map]
  exact List.filterMap_some l

lemma srcElems_map_ins (l : List α) : srcElems (l.map EditOp.ins) = [] := by
  simp [srcElems, List.filterMap_map]

lemma outElems_map_ins (l : List α) : outElems (l.map EditOp.ins) = l := by
  simp [outElems, List.filterMap_map]
  exact List.filterMap_some l

lemma outElems_map_del (l : List α) : outElems (l.map EditOp.del) = [] := by
  simp [outElems, List.filterMap_map]

lemma srcElems_append (L1 L2 : List (EditOp α)) :
    srcElems (L1 ++ L2) = srcElems L1 ++ srcElems L2 :=
  List.filterMap_append L1 L2 _

lemma outElems_append (L1 L2 : List (EditOp α)) :
    outElems (L1 ++ L2) = outElems L1 ++ outElems L2 :=
  List.filterMap_append L1 L2 _


lemma srcElems_cons_m (a b : α) (L : List (EditOp α)) :
    srcElems (EditOp.mtch a b :: L) = a :: srcElems L := rfl

lemma srcElems_cons_i (b : α) (L : List (EditOp α)) :
    srcElems (EditOp.ins b :: L) = srcElems L := rfl

lemma srcElems_cons_d (a : α) (L : List (EditOp α)) :
    srcElems (EditOp.del a :: L) = a :: srcElems L := rfl

lemma outElems_cons_m (a b : α) (L : List (EditOp α)) :
    outElems (EditOp.mtch a b :: L) = b :: outElems L := rfl

lemma outElems_cons_i (b : α) (L : List (EditOp α)) :
    outElems (EditOp.ins b :: L) = b :: outElems L := rfl

lemma outElems_cons_d (a : α) (L : List (EditOp α)) :
    outElems (EditOp.del a :: L) = outElems L := rfl

lemma emit_code0 (P : List (List ℕ)) (i j : ℕ)
    (hP : (P[i + 1]?.bind fun r => r[j + 1]?) = some 0) :
    emit x y P (i + 1) (j + 1) =
      x[i]?.bind fun a => y[j]?.bind fun b =>
        (emit x y P i j).map fun L => EditOp.mtch a b :: L := by
  rw [emit_succ_succ, hP, Option.some_bind]
  simp

lemma emit_code1 (P : List (List ℕ)) (i j : ℕ)
    (hP : (P[i + 1]?.bind fun r => r[j + 1]?) = some 1) :
    emit x y P (i + 1) (j + 1) =
      y[j]?.bind fun b =>
        (emit x y P (i + 1) j).map fun L => EditOp.ins b :: L := by
  rw [emit_succ_succ, hP, Option.some_bind]
  simp

lemma emit_code_other (P : List (List ℕ)) (i j p : ℕ)
    (hP : (P[i + 1]?.bind fun r => r[j + 1]?) = some p)
    (hp0 : p ≠ 0) (hp1 : p ≠ 1) :
    emit x y P (i + 1) (j + 1) =
      x[i]?.bind fun a =>
        (emit x y P i (j + 1)).map fun L => EditOp.del a :: L := by
  rw [emit_succ_succ, hP, Option.some_bind, if_neg hp0, if_neg hp1]

lemma bindP_dynprogP {i j : ℕ} (hi : i ≤ x.length) (hj : j ≤ y.length) :
    (dynprogP ic dc mc x y)[i]?.bind (fun r => r[j]?) =
      some (dpP ic dc mc x y i j) :=
  entryN_dynprogP ic dc mc x y hi hj

lemma emit_dynprog_spec :
    ∀ n ix iy, ix + iy ≤ n → ix ≤ x.length → iy ≤ y.length →
      ∃ L, emit x y (dynprogP ic dc mc x y) ix iy = some L ∧
        scriptCost ic dc mc L = dpM ic dc mc x y ix iy ∧
        srcElems L = (x.take ix).reverse ∧
        outElems L = (y.take iy).reverse := by
  intro n
  induction n with
  | zero =>
      intro ix iy h hx hy
      obtain ⟨rfl, rfl⟩ : ix = 0 ∧ iy = 0 := by omega
      refine ⟨[], ?_, by simp [scriptCost, dpM_zero_zero], by simp [srcElems],
        by simp [outElems]⟩
      rw [emit_zero_right]
      rfl
  | succ n ih =>
      intro ix iy h hx hy
      rcases ix with _ | i
      · rcases iy with _ | j
        · refine ⟨[], ?_, by simp [scriptCost, dpM_zero_zero], by simp [srcElems],
            by simp [outElems]⟩
          rw [emit_zero_right]
          rfl
        · refine ⟨((y.take (j + 1)).reverse).map EditOp.ins, ?_, ?_, ?_, ?_⟩
          · rw [emit_zero_left, drainI_eq hy]
            simp [drainD]
          · rw [scriptCost_map_ins, List.map_reverse, List.sum_reverse,
              dpM_col ic dc mc x y hy]
          · rw [srcElems_map_ins]
            rfl
          · rw [outElems_map_ins]
      · rcases iy with _ | j
        · refine ⟨((x.take (i + 1)).reverse).map EditOp.del, ?_, ?_, ?_, ?_⟩
          · rw [emit_zero_right, drainD_eq hx]
            simp [drainI]
          · rw [scriptCost_map_del, List.map_reverse, List.sum_reverse,
              dpM_row ic dc mc x y hx]
          · rw [srcElems_map_del]
          · rw [outElems_map_del]
            rfl
        · have hxi : i < x.length := Nat.lt_of_succ_le hx
          have hyj : j < y.length := Nat.lt_of_succ_le hy
          have hPij := bindP_dynprogP ic dc mc x y hx hy
          by_cases h1 : dpM ic dc mc x y i j + mc (x.getD i default) (y.getD j default) ≤
                dpM ic dc mc x y (i + 1) j + ic (y.getD j default) ∧
              dpM ic dc mc x y i j + mc (x.getD i default) (y.getD j default) ≤
                dpM ic dc mc x y i (j + 1) + dc (x.getD i default)
          · have hp : dpP ic dc mc x y (i + 1) (j + 1) = 0 := by
              rw [dpP_succ_succ, if_pos h1]
            obtain ⟨L, hL, hc, hs, ho⟩ := ih i j (by omega) (by omega) (by omega)
            refine ⟨EditOp.mtch (x.getD i default) (y.getD j default) :: L,
              ?_, ?_, ?_, ?_⟩
            · rw [emit_code0 x y _ i j (hPij.trans (by rw [hp])),
                getElem?_eq_some_getD hxi, Option.some_bind,
                getElem?_eq_some_getD hyj, Option.some_bind, hL]
              rfl
            · rw [scriptCost_cons, hc, dpM_succ_succ, min3_eq_left h1.1 h1.2]
              simp only [opCost]
              ring
            · rw [srcElems_cons_m, hs, take_succ_getD hxi, List.reverse_append]
              rfl
            · rw [outElems_cons_m, ho, take_succ_getD hyj, List.reverse_append]
              rfl
          · by_cases h2 : dpM ic dc mc x y (i + 1) j + ic (y.getD j default) ≤
                dpM ic dc mc x y i (j + 1) + dc (x.getD i default)
            · have hp : dpP ic dc mc x y (i + 1) (j + 1) = 1 := by
                rw [dpP_succ_succ, if_neg h1, if_pos h2]
              obtain ⟨L, hL, hc, hs, ho⟩ := ih (i + 1) j (by omega) hx (by omega)
              refine ⟨EditOp.ins (y.getD j default) :: L, ?_, ?_, ?_, ?_⟩
              · rw [emit_code1 x y _ i j (hPij.trans (by rw [hp])),
                  getElem?_eq_some_getD hyj, Option.some_bind, hL]
                rfl
              · rw [scriptCost_cons, hc, dpM_succ_succ, min3_eq_mid h1 h2]
                simp only [opCost]
                ring
              · rw [srcElems_cons_i, hs]
              · rw [outElems_cons_i, ho, take_succ_getD hyj, List.reverse_append]
                rfl
            · have hp : dpP ic dc mc x y (i + 1) (j + 1) = 2 := by
                rw [dpP_succ_succ, if_neg h1, if_neg h2]
              obtain ⟨L, hL, hc, hs, ho⟩ := ih i (j + 1) (by omega) (by omega) hy
              refine ⟨EditOp.del (x.getD i default) :: L, ?_, ?_, ?_, ?_⟩
              · rw [emit_code_other x y _ i j 2 (hPij.trans (by rw [hp]))
                  (by omega) (by omega),
                  getElem?_eq_some_getD hxi, Option.some_bind, hL]
                rfl
              · rw [scriptCost_cons, hc, dpM_succ_succ, min3_eq_right h1 h2]
                simp only [opCost]
                ring
              · rw [srcElems_cons_d, hs, take_succ_getD hxi, List.reverse_append]
                rfl
              · rw [outElems_cons_d, ho]


lemma scriptCost_reverse (L : List (EditOp α)) :
    scriptCost ic dc mc L.reverse = scriptCost ic dc mc L := by
  rw [scriptCost, scriptCost, List.map_reverse, List.sum_reverse]

lemma srcElems_reverse (L : List (EditOp α)) :
    srcElems L.reverse = (srcElems L).reverse :=
  List.filterMap_reverse _ _

lemma outElems_reverse (L : List (EditOp α)) :
    outElems L.reverse = (outElems L).reverse :=
  List.filterMap_reverse _ _

lemma replaySub_of_src :
    ∀ (S : List (EditOp α)) (s : List α), srcElems S = s →
      replaySub S s = some (outElems S) := by
  intro S
  induction S with
  | nil =>
      intro s hs
      rw [← hs]
      rfl
  | cons op S ih =>
      intro s hs
      subst hs
      cases op with
      | mtch a b =>
          show (replaySub S (srcElems S)).map (fun t => b :: t) =
            some (outElems (EditOp.mtch a b :: S))
          rw [ih _ rfl]
          rfl
      | ins b =>
          show (replaySub S (srcElems (EditOp.ins b :: S))).map (fun t => b :: t) =
            some (outElems (EditOp.ins b :: S))
          rw [srcElems_cons_i, ih _ rfl]
          rfl
      | del a =>
          show replaySub S (srcElems S) = some (outElems (EditOp.del a :: S))
          rw [ih _ rfl]
          rfl

lemma emit_total (P : List (List ℕ)) (hlen : x.length + 1 ≤ P.length)
    (hrow : ∀ r ∈ P, y.length + 1 ≤ r.length) :
    ∀ n ix iy, ix + iy ≤ n → ix ≤ x.length → iy ≤ y.length →
      ∃ L, emit x y P ix iy = some L := by
  intro n
  induction n with
  | zero =>
      intro ix iy h hx hy
      obtain ⟨rfl, rfl⟩ : ix = 0 ∧ iy = 0 := by omega
      exact ⟨[], rfl⟩
  | succ n ih =>
      intro ix iy h hx hy
      rcases ix with _ | i
      · rcases iy with _ | j
        · exact ⟨[], rfl⟩
        · refine ⟨((y.take (j + 1)).reverse).map EditOp.ins, ?_⟩
          rw [emit_zero_left, drainI_eq hy]
          simp [drainD]
      · rcases iy with _ | j
        · refine ⟨((x.take (i + 1)).reverse).map EditOp.del, ?_⟩
          rw [emit_zero_right, drainD_eq hx]
          simp [drainI]
        · have hxi : i < x.length := Nat.lt_of_succ_le hx
          have hyj : j < y.length := Nat.lt_of_succ_le hy
          have hi2 : i + 1 < P.length := by omega
          have hj2 : j + 1 < (P[i + 1]).length := by
            have := hrow (P[i + 1]) (List.getElem_mem hi2)
            omega
          have hP : (P[i + 1]?.bind fun r => r[j + 1]?) = some (P[i + 1][j + 1]) := by
            rw [List.getElem?_eq_getElem hi2, Option.some_bind,
              List.getElem?_eq_getElem hj2]
          by_cases hp0 : P[i + 1][j + 1] = 0
          · obtain ⟨L, hL⟩ := ih i j (by omega) (by omega) (by omega)
            rw [emit_code0 x y P i j (by rw [hP, hp0]),
              getElem?_eq_some_getD hxi, Option.some_bind,
              getElem?_eq_some_getD hyj, Option.some_bind, hL]
            exact ⟨_, rfl⟩
          · by_cases hp1 : P[i + 1][j + 1] = 1
            · obtain ⟨L, hL⟩ := ih (i + 1) j (by omega) hx (by omega)
              rw [emit_code1 x y P i j (by rw [hP, hp1]),
                getElem?_eq_some_getD hyj, Option.some_bind, hL]
              exact ⟨_, rfl⟩
            · obtain ⟨L, hL⟩ := ih i (j + 1) (by omega) (by omega) hy
              rw [emit_code_other x y P i j _ hP hp0 hp1,
                getElem?_eq_some_getD hxi, Option.some_bind, hL]
              exact ⟨_, rfl⟩

lemma getD_concat (e : α) : (y ++ [e]).getD y.length default = e := by
  rw [List.getD_append_right y [e] default y.length le_rfl]
  simp

lemma dpM_append (e : α) :
    ∀ n i j, i + j ≤ n → j ≤ y.length →
      dpM ic dc mc x (y ++ [e]) i j = dpM ic dc mc x y i j := by
  intro n
  induction n with
  | zero =>
      intro i j h hj
      obtain ⟨rfl, rfl⟩ : i = 0 ∧ j = 0 := by omega
      rfl
  | succ n ih =>
      intro i j h hj
      rcases i with _ | i
      · rcases j with _ | j
        · rfl
        · rw [dpM_zero_succ, dpM_zero_succ, ih 0 j (by omega) (by omega),
            List.getD_append y [e] default j (Nat.lt_of_succ_le hj)]
      · rcases j with _ | j
        · rw [dpM_succ_zero, dpM_succ_zero, ih i 0 (by omega) (by omega)]
        · rw [dpM_succ_succ, dpM_succ_succ, ih i j (by omega) (by omega),
            ih (i + 1) j (by omega) (by omega), ih i (j + 1) (by omega) hj,
            List.getD_append y [e] default j (Nat.lt_of_succ_le hj)]


lemma min3_rot (A B C : ℚ) : min (min A B) C = min (min B C) A :=
  (min_assoc A B C).trans (min_comm A (min B C))

lemma levMat_succ_succ [DecidableEq α] (s1 s2 : List α) (i j : ℕ) :
    levMat s1 s2 (i + 1) (j + 1) =
      if s1.getD i default = s2.getD j default then
        min (min (levMat s1 s2 i (j + 1) + 1) (levMat s1 s2 i j))
            (levMat s1 s2 (i + 1) j + 1)
      else
        min (min (levMat s1 s2 i (j + 1) + 1) (levMat s1 s2 i j + 1))
            (levMat s1 s2 (i + 1) j + 1) := rfl

lemma dpM_unit_row [DecidableEq α] (s1 s2 : List α) (i : ℕ) :
    dpM (fun _ => 1) (fun _ => 1) (fun a b => if a = b then (0 : ℚ) else 1)
      s1 s2 i 0 = (i : ℚ) := by
  induction i with
  | zero =>
      rw [dpM_zero_zero]
      norm_num
  | succ i ih =>
      rw [dpM_succ_zero, ih]
      push_cast
      ring

lemma dpM_unit_col [DecidableEq α] (s1 s2 : List α) (j : ℕ) :
    dpM (fun _ => 1) (fun _ => 1) (fun a b => if a = b then (0 : ℚ) else 1)
      s1 s2 0 j = (j : ℚ) := by
  induction j with
  | zero =>
      rw [dpM_zero_zero]
      norm_num
  | succ j ih =>
      rw [dpM_zero_succ, ih]
      push_cast
      ring

lemma levMat_eq_dpM [DecidableEq α] (s1 s2 : List α) :
    ∀ n i j, i + j ≤ n →
      levMat s1 s2 i j =
        dpM (fun _ => 1) (fun _ => 1) (fun a b => if a = b then (0 : ℚ) else 1)
          s1 s2 i j := by
  intro n
  induction n with
  | zero =>
      intro i j h
      obtain ⟨rfl, rfl⟩ : i = 0 ∧ j = 0 := by omega
      rw [dpM_zero_zero]
      rfl
  | succ n ih =>
      intro i j h
      rcases i with _ | i
      · rw [dpM_unit_col]
        rfl
      · rcases j with _ | j
        · rw [dpM_unit_row]
          rfl
        · have e1 := ih i j (by omega)
          have e2 := ih (i + 1) j (by omega)
          have e3 := ih i (j + 1) (by omega)
          rw [levMat_succ_succ, dpM_succ_succ, e1, e2, e3]
          by_cases he : s1.getD i default = s2.getD j default
          · rw [if_pos he, if_pos he, add_zero, min3_rot]
          · rw [if_neg he, if_neg he, min3_rot]

lemma map_length_range_map {β : Type*} (n m : ℕ) (f : ℕ → ℕ → β) :
    ((List.range n).map fun i => (List.range m).map (f i)).map List.length =
      List.replicate n m := by
  rw [List.map_map]
  have h : (List.length ∘ fun i => (List.range m).map (f i)) = fun _ => m := by
    funext i
    simp
  rw [h, show (fun _ : ℕ => m) = Function.const ℕ m from rfl, List.map_const,
    List.length_range]

end Helpers

/-- Claim C1: for every pair of sequences and every cost model with
non-negative costs, replaying the edit script produced by backtracking over
the matrices that `dynprog` computed for that same pair — summing
`match_cost` for each match, `insert_cost` for each insert, `delete_cost`
for each delete — yields a total exactly equal to `M[nx][ny]`, the edit
distance. -/
theorem round_trip_cost {α : Type*} [Inhabited α] (ic dc : α → ℚ)
    (mc : α → α → ℚ) (x y : List α) (_hic : ∀ e, 0 ≤ ic e)
    (_hdc : ∀ e, 0 ≤ dc e) (_hmc : ∀ a b, 0 ≤ mc a b) :
    ∃ L, explain_dynprog x y (dynprogM ic dc mc x y) (dynprogP ic dc mc x y) =
        some L ∧
      scriptCost ic dc mc L = edit_distance ic dc mc x y := by
  obtain ⟨L, hL, hc, hs, ho⟩ := emit_dynprog_spec ic dc mc x y
    (x.length + y.length) x.length y.length le_rfl le_rfl le_rfl
  refine ⟨L.reverse, ?_, ?_⟩
  · rw [explain_dynprog, hL]
    rfl
  · rw [scriptCost_reverse, hc]
    rfl

/-- Witness for C1 at the default cost model and `x = [0]`, `y = [1]`. -/
theorem round_trip_cost_witness :
    ∃ L, explain_dynprog [0] [1]
        (dynprogM (fun _ => (1 : ℚ)) (fun _ => 2)
          (fun a b => if a = b then 0 else 4) [0] [1])
        (dynprogP (fun _ => (1 : ℚ)) (fun _ => 2)
          (fun a b => if a = b then 0 else 4) [0] [1]) = some L ∧
      scriptCost (fun _ => (1 : ℚ)) (fun _ => 2)
          (fun a b => if a = b then 0 else 4) L =
        edit_distance (fun _ => (1 : ℚ)) (fun _ => 2)
          (fun a b => if a = b then 0 else 4) [0] [1] := by
  apply round_trip_cost
  · intro e
    norm_num
  · intro e
    norm_num
  · intro a b
    dsimp only
    split_ifs <;> norm_num

/-- Claim C2: the matrix `M` returned by `dynprog` satisfies
`M[0][0] = 0`, `M[i][0]` is the cumulative sum of delete costs over the
first `i` source elements, `M[0][j]` the cumulative sum of insert costs
over the first `j` target elements, and each inner cell is the minimum of
the three candidate costs `M[i-1][j-1] + match`, `M[i][j-1] + insert`,
`M[i-1][j] + delete`. -/
theorem dynprog_cell_recurrence {α : Type*} [Inhabited α] (ic dc : α → ℚ)
    (mc : α → α → ℚ) (x y : List α) :
    entry (dynprogM ic dc mc x y) 0 0 = some 0 ∧
    (∀ i, 1 ≤ i → i ≤ x.length →
      entry (dynprogM ic dc mc x y) i 0 = some (((x.take i).map dc).sum)) ∧
    (∀ j, 1 ≤ j → j ≤ y.length →
      entry (dynprogM ic dc mc x y) 0 j = some (((y.take j).map ic).sum)) ∧
    (∀ i j, 1 ≤ i → i ≤ x.length → 1 ≤ j → j ≤ y.length →
      ∃ a b c, entry (dynprogM ic dc mc x y) (i - 1) (j - 1) = some a ∧
        entry (dynprogM ic dc mc x y) i (j - 1) = some b ∧
        entry (dynprogM ic dc mc x y) (i - 1) j = some c ∧
        entry (dynprogM ic dc mc x y) i j =
          some (min (min (a + mc (x.getD (i - 1) default)
                            (y.getD (j - 1) default))
                         (b + ic (y.getD (j - 1) default)))
                    (c + dc (x.getD (i - 1) default)))) := by
  refine ⟨?_, ?_, ?_, ?_⟩
  · rw [entry_dynprogM ic dc mc x y (Nat.zero_le _) (Nat.zero_le _),
      dpM_zero_zero]
  · intro i h1 h2
    rw [entry_dynprogM ic dc mc x y h2 (Nat.zero_le _), dpM_row ic dc mc x y h2]
  · intro j h1 h2
    rw [entry_dynprogM ic dc mc x y (Nat.zero_le _) h2, dpM_col ic dc mc x y h2]
  · intro i j hi1 hi hj1 hj
    obtain ⟨i2, rfl⟩ : ∃ k, i = k + 1 := ⟨i - 1, by omega⟩
    obtain ⟨j2, rfl⟩ : ∃ k, j = k + 1 := ⟨j - 1, by omega⟩
    simp only [Nat.add_sub_cancel]
    refine ⟨_, _, _, entry_dynprogM ic dc mc x y (by omega) (by omega),
      entry_dynprogM ic dc mc x y (by omega) (by omega),
      entry_dynprogM ic dc mc x y (by omega) (by omega), ?_⟩
    rw [entry_dynprogM ic dc mc x y hi hj, dpM_succ_succ]

/-- Witness for C2: under the default cost model with `x = [0]`, `y = [1]`,
the boundary cell `M[1][0]` holds the delete cost 2. -/
theorem dynprog_cell_recurrence_witness :
    entry (dynprogM (fun _ => (1 : ℚ)) (fun _ => 2)
        (fun a b => if a = b then 0 else 4) [0] [1]) 1 0 = some 2 := by
  have h := (dynprog_cell_recurrence (fun _ => (1 : ℚ)) (fun _ => 2)
    (fun a b => if a = b then 0 else 4) [0] [1]).2.1 1 le_rfl le_rfl
  rw [h]
  norm_num

/-- Claim C3: for every inner cell, the trace entry `P[i][j]` records the
first candidate attaining the minimum when the three candidates are
evaluated in the source order [match, insert, delete]: the recorded index
names a candidate equal to `M[i][j]`, and every earlier candidate is
strictly larger. -/
theorem trace_first_argmin {α : Type*} [Inhabited α] (ic dc : α → ℚ)
    (mc : α → α → ℚ) (x y : List α) (i j : ℕ) (hi1 : 1 ≤ i)
    (hi : i ≤ x.length) (hj1 : 1 ≤ j) (hj : j ≤ y.length) :
    ∃ p, entryN (dynprogP ic dc mc x y) i j = some p ∧ p < 3 ∧
      [dpM ic dc mc x y (i - 1) (j - 1) +
          mc (x.getD (i - 1) default) (y.getD (j - 1) default),
        dpM ic dc mc x y i (j - 1) + ic (y.getD (j - 1) default),
        dpM ic dc mc x y (i - 1) j + dc (x.getD (i - 1) default)].getD p 0 =
        dpM ic dc mc x y i j ∧
      ∀ q, q < p →
        dpM ic dc mc x y i j <
          [dpM ic dc mc x y (i - 1) (j - 1) +
              mc (x.getD (i - 1) default) (y.getD (j - 1) default),
            dpM ic dc mc x y i (j - 1) + ic (y.getD (j - 1) default),
            dpM ic dc mc x y (i - 1) j + dc (x.getD (i - 1) default)].getD q 0 := by
  obtain ⟨i2, rfl⟩ : ∃ k, i = k + 1 := ⟨i - 1, by omega⟩
  obtain ⟨j2, rfl⟩ : ∃ k, j = k + 1 := ⟨j - 1, by omega⟩
  simp only [Nat.add_sub_cancel]
  by_cases h1 : dpM ic dc mc x y i2 j2 +
        mc (x.getD i2 default) (y.getD j2 default) ≤
      dpM ic dc mc x y (i2 + 1) j2 + ic (y.getD j2 default) ∧
    dpM ic dc mc x y i2 j2 + mc (x.getD i2 default) (y.getD j2 default) ≤
      dpM ic dc mc x y i2 (j2 + 1) + dc (x.getD i2 default)
  · refine ⟨0, ?_, by omega, ?_, ?_⟩
    · rw [entryN_dynprogP ic dc mc x y hi hj, dpP_succ_succ, if_pos h1]
    · simp only [List.getD_cons_zero]
      rw [dpM_succ_succ, min3_eq_left h1.1 h1.2]
    · intro q hq
      exact absurd hq (Nat.not_lt_zero q)
  · by_cases h2 : dpM ic dc mc x y (i2 + 1) j2 + ic (y.getD j2 default) ≤
        dpM ic dc mc x y i2 (j2 + 1) + dc (x.getD i2 default)
    · refine ⟨1, ?_, by omega, ?_, ?_⟩
      · rw [entryN_dynprogP ic dc mc x y hi hj, dpP_succ_succ, if_neg h1,
          if_pos h2]
      · simp only [List.getD_cons_succ, List.getD_cons_zero]
        rw [dpM_succ_succ, min3_eq_mid h1 h2]
      · intro q hq
        obtain rfl : q = 0 := by omega
        simp only [List.getD_cons_zero]
        rw [dpM_succ_succ, min3_eq_mid h1 h2]
        rcases not_and_or.mp h1 with h3 | h3 <;> push_neg at h3 <;> linarith
    · have h2l := not_le.mp h2
      refine ⟨2, ?_, by omega, ?_, ?_⟩
      · rw [entryN_dynprogP ic dc mc x y hi hj, dpP_succ_succ, if_neg h1,
          if_neg h2]
      · simp only [List.getD_cons_succ, List.getD_cons_zero]
        rw [dpM_succ_succ, min3_eq_right h1 h2]
      · intro q hq
        interval_cases q
        · simp only [List.getD_cons_zero]
          rw [dpM_succ_succ, min3_eq_right h1 h2]
          rcases not_and_or.mp h1 with h3 | h3 <;> push_neg at h3 <;> linarith
        · simp only [List.getD_cons_succ, List.getD_cons_zero]
          rw [dpM_succ_succ, min3_eq_right h1 h2]
          linarith

/-- Witness for C3 at the default model, `x = [0]`, `y = [0]`, cell
`(1, 1)`. -/
theorem trace_first_argmin_witness :
    ∃ p, entryN (dynprogP (fun _ => (1 : ℚ)) (fun _ => 2)
        (fun a b => if a = b then 0 else 4) [0] [0]) 1 1 = some p ∧ p < 3 := by
  obtain ⟨p, hp, hlt, _, _⟩ := trace_first_argmin (fun _ => (1 : ℚ))
    (fun _ => 2) (fun a b => if a = b then 0 else 4) [0] [0] 1 1
    le_rfl le_rfl le_rfl le_rfl
  exact ⟨p, hp, hlt⟩

/-- Claim C4 counterexample: with `match_cost` identically 0, the optimal
script for `x = [0]`, `y = [1]` is the single substitution
`mtch 0 1`; replaying it with the literal "match copies the source
element" semantics rebuilds `[0]`, not the target `[1]`. -/
theorem replay_copy_counterexample :
    explain_dynprog [0] [1]
        (dynprogM (fun _ => (1 : ℚ)) (fun _ => 1) (fun _ _ => 0) [0] [1])
        (dynprogP (fun _ => (1 : ℚ)) (fun _ => 1) (fun _ _ => 0) [0] [1]) =
      some [EditOp.mtch 0 1] ∧
    replay [EditOp.mtch 0 1] [0] = some [0] ∧
    some [0] ≠ some [1] := by
  refine ⟨?_, rfl, by decide⟩
  norm_num [explain_dynprog, emit, emitRowS, dynprogP, dpP, dpM, dpMrowS,
    dpMrow0, drainD, drainI, List.range_succ]

/-- Claim C4 (amended): applying the edit script in order to `source`,
where a match/substitution writes the operation's TARGET element (for an
equal-element match this is the same as copying the source element), an
insert writes the target element, and a delete skips the source element,
reconstructs `target` exactly. -/
theorem replay_rebuilds_target {α : Type*} [Inhabited α] (ic dc : α → ℚ)
    (mc : α → α → ℚ) (x y : List α) :
    ∃ L, explain_dynprog x y (dynprogM ic dc mc x y) (dynprogP ic dc mc x y) =
        some L ∧
      replaySub L x = some y := by
  obtain ⟨L, hL, hc, hs, ho⟩ := emit_dynprog_spec ic dc mc x y
    (x.length + y.length) x.length y.length le_rfl le_rfl le_rfl
  refine ⟨L.reverse, ?_, ?_⟩
  · rw [explain_dynprog, hL]
    rfl
  · have hsrc : srcElems L.reverse = x := by
      rw [srcElems_reverse, hs, List.reverse_reverse, List.take_length]
    have hout : outElems L.reverse = y := by
      rw [outElems_reverse, ho, List.reverse_reverse, List.take_length]
    rw [replaySub_of_src L.reverse x hsrc, hout]

/-- Claim C5: the distance between empty sequences is 0, the distance from
`source` to the empty sequence is the sum of delete costs over `source`,
and the distance from the empty sequence to `target` is the sum of insert
costs over `target`. -/
theorem dynprog_base_cases {α : Type*} [Inhabited α] (ic dc : α → ℚ)
    (mc : α → α → ℚ) :
    edit_distance ic dc mc ([] : List α) [] = 0 ∧
    (∀ x : List α, edit_distance ic dc mc x [] = (x.map dc).sum) ∧
    (∀ y : List α, edit_distance ic dc mc [] y = (y.map ic).sum) := by
  refine ⟨rfl, fun x => ?_, fun y => ?_⟩
  · show dpM ic dc mc x [] x.length 0 = (x.map dc).sum
    rw [dpM_row ic dc mc x [] le_rfl, List.take_length]
  · show dpM ic dc mc [] y 0 y.length = (y.map ic).sum
    rw [dpM_col ic dc mc [] y le_rfl, List.take_length]

/-- Claim C6 counterexample: with every cost function returning `-1`,
`dynprog` does not fail — it returns the full matrix pair, and the
negative costs propagate into `M` (here `M[1][1] = -2`). -/
theorem negative_costs_return_matrices :
    dynprog (fun _ => (-1 : ℚ)) (fun _ => -1) (fun _ _ => -1) [0] [0] =
      ([[0, -1], [-1, -2]], [[0, 1], [2, 1]]) ∧
    entry (dynprogM (fun _ => (-1 : ℚ)) (fun _ => -1) (fun _ _ => -1) [0] [0])
        1 1 = some (-2) := by
  constructor <;>
    norm_num [dynprog, dynprogM, dynprogP, dpM, dpMrowS, dpMrow0, dpP, entry,
      List.range_succ, min_def]

/-- Claim C6 (amended): `dynprog` performs no validation of cost values;
for every cost model — including one producing negative or otherwise
invalid values — it returns the complete `(M, P)` pair with `nx + 1` rows
of `ny + 1` entries each. -/
theorem dynprog_no_validation {α : Type*} [Inhabited α] (ic dc : α → ℚ)
    (mc : α → α → ℚ) (x y : List α) :
    (dynprog ic dc mc x y).1.length = x.length + 1 ∧
    (dynprog ic dc mc x y).1.map List.length =
      List.replicate (x.length + 1) (y.length + 1) ∧
    (dynprog ic dc mc x y).2.length = x.length + 1 ∧
    (dynprog ic dc mc x y).2.map List.length =
      List.replicate (x.length + 1) (y.length + 1) := by
  refine ⟨?_, ?_, ?_, ?_⟩
  · simp [dynprog, dynprogM]
  · exact map_length_range_map (x.length + 1) (y.length + 1)
      (fun i j => dpM ic dc mc x y i j)
  · simp [dynprog, dynprogP]
  · exact map_length_range_map (x.length + 1) (y.length + 1)
      (fun i j => dpP ic dc mc x y i j)

/-- Claim C7 counterexample: `explain_dynprog` invoked on empty sequences
with a 2×2 trace matrix — the required shape is 1×1 — raises nothing and
returns the empty script. -/
theorem shape_mismatch_no_error :
    explain_dynprog ([] : List ℕ) [] [] [[0, 0], [0, 0]] = some [] ∧
    ([[0, 0], [0, 0]] : List (List ℕ)).length ≠ ([] : List ℕ).length + 1 :=
  ⟨rfl, by decide⟩

/-- Claim C7 (amended): `explain_dynprog` performs no shape check at all;
whenever the trace matrix is at least as large as the walk needs — its
row count and every row length may strictly exceed the required
`(nx + 1) × (ny + 1)` — the walk succeeds and a script is returned.
Undersized matrices fail only at the out-of-range access inside the loop,
not in a check before it. -/
theorem explain_ignores_shape {α : Type*} [Inhabited α] (x y : List α)
    (M : List (List ℚ)) (P : List (List ℕ))
    (hlen : x.length + 1 ≤ P.length)
    (hrow : ∀ r ∈ P, y.length + 1 ≤ r.length) :
    ∃ L, explain_dynprog x y M P = some L := by
  obtain ⟨L, hL⟩ := emit_total x y P hlen hrow (x.length + y.length)
    x.length y.length le_rfl le_rfl le_rfl
  refine ⟨L.reverse, ?_⟩
  rw [explain_dynprog, hL]
  rfl

/-- Witness for the amended C7: a 3×2 trace matrix for `x = [5]`, `y = []`
(required shape 2×1) is accepted. -/
theorem explain_ignores_shape_witness :
    ∃ L, explain_dynprog [5] ([] : List ℕ) [] [[0, 0], [0, 0], [0, 0]] =
      some L := by
  apply explain_ignores_shape
  · decide
  · decide

/-- Claim C8: the recursive `lev` contradicts its own docstring ("compute
the Levenshtein distance"): its base-case guards are inverted, so already
on `a = [0]`, `b = []` (combined length 1) it returns 0 while the DP
distance — the cost of deleting the one source element — is 2. -/
theorem lev_base_case_bug :
    lev (fun _ => (1 : ℚ)) (fun _ => 2) (fun a b => if a = b then 0 else 4)
        [0] [] = some 0 ∧
    edit_distance (fun _ => (1 : ℚ)) (fun _ => 2)
        (fun a b => if a = b then 0 else 4) [0] ([] : List ℕ) = 2 ∧
    (0 : ℚ) ≠ 2 := by
  refine ⟨rfl, ?_, by norm_num⟩
  norm_num [edit_distance, dpM, dpMrowS, dpMrow0]

/-- Claim C9: appending one element `e` to the target raises the edit
distance by at most `insert_cost e` (hence by at most the maximum insert
cost over the alphabet). -/
theorem append_insert_bound {α : Type*} [Inhabited α] (ic dc : α → ℚ)
    (mc : α → α → ℚ) (x y : List α) (e : α) (_hic : ∀ a, 0 ≤ ic a)
    (_hdc : ∀ a, 0 ≤ dc a) (_hmc : ∀ a b, 0 ≤ mc a b) :
    edit_distance ic dc mc x (y ++ [e]) ≤ edit_distance ic dc mc x y + ic e := by
  have hlen : (y ++ [e]).length = y.length + 1 := by simp
  rw [edit_distance, edit_distance, hlen]
  cases hn : x.length with
  | zero =>
      rw [dpM_zero_succ,
        dpM_append ic dc mc x y e (0 + y.length) 0 y.length le_rfl le_rfl,
        getD_concat]
  | succ i =>
      have hb : dpM ic dc mc x (y ++ [e]) (i + 1) y.length +
            ic ((y ++ [e]).getD y.length default) =
          dpM ic dc mc x y (i + 1) y.length + ic e := by
        rw [dpM_append ic dc mc x y e (i + 1 + y.length) (i + 1) y.length
          le_rfl le_rfl, getD_concat]
      calc dpM ic dc mc x (y ++ [e]) (i + 1) (y.length + 1) ≤
          dpM ic dc mc x (y ++ [e]) (i + 1) y.length +
            ic ((y ++ [e]).getD y.length default) := by
            rw [dpM_succ_succ]
            exact le_trans (min_le_left _ _) (min_le_right _ _)
        _ = dpM ic dc mc x y (i + 1) y.length + ic e := hb

/-- Witness for C9 at the default model, `x = [0]`, `y = [1]`, `e = 2`. -/
theorem append_insert_bound_witness :
    edit_distance (fun _ => (1 : ℚ)) (fun _ => 2)
        (fun a b => if a = b then 0 else 4) [0] ([1] ++ [2]) ≤
      edit_distance (fun _ => (1 : ℚ)) (fun _ => 2)
        (fun a b => if a = b then 0 else 4) [0] [1] + 1 := by
  apply append_insert_bound
  · intro a
    norm_num
  · intro a
    norm_num
  · intro a b
    dsimp only
    split_ifs <;> norm_num

/-- Claim C10: the unparameterized `levenshtein` computes exactly the final
DP cell of `dynprog` run with the unit cost model (insert 1, delete 1,
match 0 on equal elements and 1 otherwise) — the classic unit-cost
Levenshtein distance, not the library's default asymmetric model. -/
theorem levenshtein_unit_cost {α : Type*} [Inhabited α] [DecidableEq α]
    (s1 s2 : List α) :
    levenshtein s1 s2 =
      edit_distance (fun _ => 1) (fun _ => 1)
        (fun a b => if a = b then (0 : ℚ) else 1) s1 s2 := by
  rw [levenshtein, edit_distance]
  exact levMat_eq_dpM s1 s2 (s1.length + s2.length) s1.length s2.length le_rfl

end Lev
